import Mathlib

/-!
Verification of the `.sgoann` annotation parser (`sgo/annotations/parse.go`).

The Go source is shallowly embedded: the source text is a list of bytes
(Go strings are byte sequences), runes are natural numbers (Unicode code
points), the hand-written tokenizer is a record with explicit state
passing, and every fallible operation returns `Except PError α` paired
with the updated tokenizer state.

The recursive-descent grammar functions `parseList` / `parseItem` /
`parseDef` are mutually recursive through nested braces; they are
embedded with an explicit fuel parameter so that every definition is
structurally recursive and kernel-computable.  `Parse` supplies fuel
`4 * length + 16`, which exceeds the call depth reachable on any input
(each recursion layer consumes at least one byte of input).  The token
loops (`SkipWhite`, `SkipWhiteUntilLine`, the identifier and type-text
loops) likewise run on a fuel bound computed from the remaining input,
which strictly decreases at each consumed token.
-/

/-- Go `unicode.IsSpace`.  The Latin-1 fast path of the Go implementation is
reproduced exactly; beyond Latin-1 the Unicode `White_Space` property holds of
exactly the listed code points, so this definition agrees with Go on every
rune. -/
def isSpace (r : Nat) : Bool :=
  decide (r = 9 ∨ r = 10 ∨ r = 11 ∨ r = 12 ∨ r = 13 ∨ r = 32 ∨ r = 0x85 ∨ r = 0xA0 ∨
    r = 0x1680 ∨ (0x2000 ≤ r ∧ r ≤ 0x200A) ∨ r = 0x2028 ∨ r = 0x2029 ∨ r = 0x202F ∨
    r = 0x205F ∨ r = 0x3000)

/-- Go `unicode.IsLetter`, restricted to the Latin-1 range (the fast path of
the Go implementation, which it reproduces exactly: ASCII letters plus the
Latin-1 letters ªµº and the accented ranges).  Letters beyond Latin-1 are not
modelled; no theorem below depends on the classification of a rune above
`0xFF`. -/
def isLetter (r : Nat) : Bool :=
  decide ((65 ≤ r ∧ r ≤ 90) ∨ (97 ≤ r ∧ r ≤ 122) ∨ r = 0xAA ∨ r = 0xB5 ∨ r = 0xBA ∨
    (0xC0 ≤ r ∧ r ≤ 0xD6) ∨ (0xD8 ≤ r ∧ r ≤ 0xF6) ∨ (0xF8 ≤ r ∧ r ≤ 0xFF))

/-- Go `unicode.IsDigit`, restricted to the Latin-1 range, where the only
decimal digits are ASCII `0`-`9` (exactly the Go fast path).  Decimal digits
beyond Latin-1 are not modelled; no theorem below depends on them. -/
def isDigit (r : Nat) : Bool :=
  decide (48 ≤ r ∧ r ≤ 57)

/-- Go `utf8.RuneError`, the Unicode replacement character U+FFFD. -/
def RuneError : Nat := 0xFFFD

/-- Go `utf8.DecodeRuneInString`, acting on the byte sequence of the string:
returns the first rune and the number of bytes of its encoding.  An empty
input gives `(RuneError, 0)`; an invalid encoding (bad leading byte, bad
continuation byte, overlong form, surrogate, or out-of-range value, all
enforced by the acceptance ranges below, or a truncated multi-byte sequence)
gives `(RuneError, 1)`. -/
def decodeRune : List Nat → Nat × Nat
  | [] => (RuneError, 0)
  | s0 :: rest =>
    if s0 < 0x80 then (s0, 1)
    else if s0 < 0xC2 ∨ 0xF4 < s0 then (RuneError, 1)
    else if s0 ≤ 0xDF then
      let b1 := rest.headD 0
      if rest.length < 1 ∨ b1 < 0x80 ∨ 0xBF < b1 then (RuneError, 1)
      else (s0 % 0x20 * 0x40 + b1 % 0x40, 2)
    else if s0 ≤ 0xEF then
      let b1 := rest.headD 0
      let b2 := rest.getD 1 0
      let lo := if s0 = 0xE0 then 0xA0 else 0x80
      let hi := if s0 = 0xED then 0x9F else 0xBF
      if rest.length < 2 ∨ b1 < lo ∨ hi < b1 ∨ b2 < 0x80 ∨ 0xBF < b2 then (RuneError, 1)
      else (s0 % 0x10 * 0x1000 + b1 % 0x40 * 0x40 + b2 % 0x40, 3)
    else
      let b1 := rest.headD 0
      let b2 := rest.getD 1 0
      let b3 := rest.getD 2 0
      let lo := if s0 = 0xF0 then 0x90 else 0x80
      let hi := if s0 = 0xF4 then 0x8F else 0xBF
      if rest.length < 3 ∨ b1 < lo ∨ hi < b1 ∨ b2 < 0x80 ∨ 0xBF < b2 ∨ b3 < 0x80 ∨ 0xBF < b3 then
        (RuneError, 1)
      else (s0 % 8 * 0x40000 + b1 % 0x40 * 0x1000 + b2 % 0x40 * 0x40 + b3 % 0x40, 4)

/-- UTF-8 encoding of a code point, used to turn Lean string literals into the
byte sequences that Go strings are. -/
def utf8Encode (c : Nat) : List Nat :=
  if c < 0x80 then [c]
  else if c < 0x800 then [0xC0 + c / 0x40, 0x80 + c % 0x40]
  else if c < 0x10000 then [0xE0 + c / 0x1000, 0x80 + c / 0x40 % 0x40, 0x80 + c % 0x40]
  else [0xF0 + c / 0x40000, 0x80 + c / 0x1000 % 0x40, 0x80 + c / 0x40 % 0x40, 0x80 + c % 0x40]

/-- The UTF-8 bytes of a Lean string, for writing concrete Go source texts. -/
def strBytes (s : String) : List Nat :=
  s.data.foldr (fun c acc => utf8Encode c.toNat ++ acc) []

/-- Go `string(r)` on a rune produced by a successful decode: the one-character
string holding that code point.  (Go would substitute U+FFFD for an invalid
code point; every rune reaching this function came from `decodeRune` without
error, hence is a valid non-surrogate code point, so the fallback of
`Char.ofNat` is unreachable.) -/
def runeToStr (r : Nat) : String :=
  String.singleton (Char.ofNat r)

/-- Go `strings.TrimSpace`: drop the maximal run of `unicode.IsSpace`
characters from both ends. -/
def trimSpace (s : String) : String :=
  String.mk (((s.data.dropWhile fun c => isSpace c.toNat).reverse.dropWhile
    fun c => isSpace c.toNat).reverse)

/-- Go `Token`: a single rune together with the position bookkeeping recorded
by the tokenizer (1-based line and column, byte size of the rune encoding,
byte offset, rune offset). -/
structure Token where
  Lexeme : Nat
  Line : Nat
  Col : Nat
  Size : Nat
  BytePos : Nat
  RunePos : Nat
deriving DecidableEq, Repr

/-- Go zero value `Token{}`. -/
def Token.zero : Token := ⟨0, 0, 0, 0, 0, 0⟩

/-- The error values surfaced by the parser: `ioEOF` is Go `io.EOF` (the
end-of-input sentinel of the tokenizer), `utf8` is `UTF8Error` (encoding error at a
line/column), `unexpected` is `UnexpectedTokenError` (syntax error carrying
the offending token), `truncated` is the package-level `EOF` value
`errors.New("unexpected end of file")` (truncation error).  `outOfFuel` is an
artifact of the fueled embedding only; it does not occur in any run or
statement below. -/
inductive PError where
  | ioEOF
  | utf8 (line col : Nat)
  | unexpected (tk : Token)
  | truncated
  | outOfFuel
deriving DecidableEq, Repr

deriving instance DecidableEq for Except

/-- Go `Tokenizer`: the source bytes and the mutable cursor state, including
the single-slot lookahead cache (`lookahead.Size > 0` means a token is
cached, matching the Go test `t.lookahead.Size > 0`). -/
structure Tokenizer where
  src : List Nat
  bytePos : Nat
  runePos : Nat
  lastLinePos : Nat
  line : Nat
  lookahead : Token
deriving DecidableEq, Repr

/-- Go `NewTokenizer`. -/
def NewTokenizer (src : List Nat) : Tokenizer :=
  { src := src, bytePos := 0, runePos := 0, lastLinePos := 0, line := 1, lookahead := Token.zero }

/-- Go `(*Tokenizer).empty`. -/
def Tokenizer.isEmpty (t : Tokenizer) : Bool :=
  decide (t.src.length ≤ t.bytePos)

/-- Go `(*Tokenizer).col`: 1-based column in rune units, measured from the
rune offset of the last line start. -/
def Tokenizer.col (t : Tokenizer) : Nat :=
  t.runePos - t.lastLinePos + 1

/-- Go `(*Tokenizer).Peek`: return the next token without consuming it.  A
cached lookahead token is returned as is; otherwise the next rune is decoded
at the current byte position, a decode yielding `utf8.RuneError` is reported
as a `UTF8Error` at the current position, and a successful decode is cached
in the lookahead slot. -/
def Tokenizer.Peek (t : Tokenizer) : Except PError Token × Tokenizer :=
  if 0 < t.lookahead.Size then (.ok t.lookahead, t)
  else if t.isEmpty then (.error .ioEOF, t)
  else
    let rs := decodeRune (t.src.drop t.bytePos)
    if rs.1 = RuneError then (.error (.utf8 t.line t.col), t)
    else
      let tk : Token := ⟨rs.1, t.line, t.col, rs.2, t.bytePos, t.runePos⟩
      (.ok tk, { t with lookahead := tk })

/-- Go `(*Tokenizer).Next`: consume and return the next token.  The lookahead
cache is cleared, the byte position advances by the byte size of the token, the
rune position by one, and consuming a line feed increments the line counter
and resets the column origin to the new rune position. -/
def Tokenizer.Next (t : Tokenizer) : Except PError Token × Tokenizer :=
  match t.Peek with
  | (.error e, t1) => (.error e, t1)
  | (.ok tk, t1) =>
    let t2 := if 0 < t1.lookahead.Size then { t1 with lookahead := Token.zero } else t1
    let t3 :=
      if 0 < tk.Size then
        let t2a := { t2 with runePos := t2.runePos + 1, bytePos := t2.bytePos + tk.Size }
        if tk.Lexeme = 10 then { t2a with line := t2a.line + 1, lastLinePos := t2a.runePos }
        else t2a
      else t2
    (.ok tk, t3)

/-- The state change of a successful `Next`, as a function of the post-`Peek`
state and the consumed token: clear the lookahead slot, advance the byte
position by the byte size of the token and the rune position by one, and, when the
token is a line feed, increment the line counter and reset the column origin
to the new rune position.  (Proof-layer name for the success branch of
`Tokenizer.Next`.) -/
def Tokenizer.consume (t : Tokenizer) (tk : Token) : Tokenizer :=
  let t2a := { t with lookahead := Token.zero, runePos := t.runePos + 1, bytePos := t.bytePos + tk.Size }
  if tk.Lexeme = 10 then { t2a with line := t2a.line + 1, lastLinePos := t2a.runePos }
  else t2a

/-- Fuel bound for the tokenizer loops: twice the remaining bytes plus the
cached lookahead size.  Every loop iteration consumes a token, which strictly
decreases this quantity, so running a loop on `fuelBound + 1` fuel never
exhausts the fuel before the exit condition of the loop holds. -/
def Tokenizer.fuelBound (t : Tokenizer) : Nat :=
  2 * (t.src.length - t.bytePos) + t.lookahead.Size

/-- Loop body of Go `(*Tokenizer).SkipWhite`, on explicit fuel. -/
def skipWhiteFuel : Nat → Tokenizer → Tokenizer
  | 0, t => t
  | fuel + 1, t =>
    match t.Peek with
    | (.error _, t1) => t1
    | (.ok tk, t1) =>
      if ! isSpace tk.Lexeme then t1
      else skipWhiteFuel fuel (t1.Next).2

/-- Go `(*Tokenizer).SkipWhite`: consume tokens until the next token is
missing or not whitespace. -/
def Tokenizer.SkipWhite (t : Tokenizer) : Tokenizer :=
  skipWhiteFuel (t.fuelBound + 1) t

/-- Loop body of Go `(*Tokenizer).SkipWhiteUntilLine`, on explicit fuel. -/
def skipWhiteUntilLineFuel : Nat → Tokenizer → Tokenizer
  | 0, t => t
  | fuel + 1, t =>
    match t.Peek with
    | (.error _, t1) => t1
    | (.ok tk, t1) =>
      if tk.Lexeme = 10 ∨ ! isSpace tk.Lexeme then t1
      else skipWhiteUntilLineFuel fuel (t1.Next).2

/-- Go `(*Tokenizer).SkipWhiteUntilLine`: consume whitespace but stop before
a line feed. -/
def Tokenizer.SkipWhiteUntilLine (t : Tokenizer) : Tokenizer :=
  skipWhiteUntilLineFuel (t.fuelBound + 1) t

/-- The parse result, the Lean image of Go `map[string]string`: an association
list whose keys stay unique because insertion replaces an existing binding. -/
abbrev AnnMap := List (String × String)

/-- Go map insertion `m[k] = v` on the association-list image: replace the
binding in place if the key is present, append otherwise. -/
def mapInsert (m : AnnMap) (k v : String) : AnnMap :=
  if m.any fun p => p.1 == k then m.map fun p => if p.1 == k then (k, v) else p
  else m ++ [(k, v)]

/-- Go loop over `itemAnns` in `parseList` doing `anns[k] = v`: fold the
bindings of the item into the accumulated map, the incoming binding replacing
any earlier one for the same key. -/
def mergeInto (anns itemAnns : AnnMap) : AnnMap :=
  itemAnns.foldl (fun acc p => mapInsert acc p.1 p.2) anns

/-- The construction of `ret` at the end of Go `parseItem`: every key of the
map of the definition is prefixed with the name of the item, a dot joining
the two when the inner key is nonempty. -/
def buildRet (name : String) (dm : AnnMap) : AnnMap :=
  dm.foldl (fun ret p => mapInsert ret (if p.1 == "" then name else name ++ "." ++ p.1) p.2) []

/-- Go `expect`: consume the next token and fail with an
`UnexpectedTokenError` unless its rune equals `r`. -/
def expect (r : Nat) (t : Tokenizer) : Except PError Unit × Tokenizer :=
  match t.Next with
  | (.error e, t1) => (.error e, t1)
  | (.ok tk, t1) =>
    if tk.Lexeme ≠ r then (.error (.unexpected tk), t1) else (.ok (), t1)

/-- The accumulation loop of Go `parseIdent`, on explicit fuel: consume runes
while they are letters or digits, appending each to the identifier. -/
def parseIdentLoopFuel : Nat → String → Tokenizer → Except PError String × Tokenizer
  | 0, _, t => (.error .outOfFuel, t)
  | fuel + 1, id, t =>
    match t.Peek with
    | (.error e, t1) => (.error e, t1)
    | (.ok tk, t1) =>
      if ¬ isLetter tk.Lexeme ∧ ¬ isDigit tk.Lexeme then (.ok id, t1)
      else parseIdentLoopFuel fuel (id ++ runeToStr tk.Lexeme) (t1.Next).2

/-- The accumulation loop of Go `parseIdent` run on its fuel bound. -/
def parseIdentLoop (id : String) (t : Tokenizer) : Except PError String × Tokenizer :=
  parseIdentLoopFuel (t.fuelBound + 1) id t

/-- Go `parseIdent`: consume the first token unconditionally, then consume
runes while they are letters or digits. -/
def parseIdent (t : Tokenizer) : Except PError String × Tokenizer :=
  match t.Next with
  | (.error e, t1) => (.error e, t1)
  | (.ok tk, t1) => parseIdentLoop (runeToStr tk.Lexeme) t1

/-- Go `parseReceiver`: consume the known `(`, then expect `*`, an
identifier, and `)`, with whitespace allowed between the parts; produce the
canonical string form. -/
def parseReceiver (t : Tokenizer) : Except PError String × Tokenizer :=
  let t1 := (t.Next).2
  match expect 42 t1.SkipWhite with
  | (.error e, t2) => (.error e, t2)
  | (.ok _, t2) =>
    match parseIdent t2.SkipWhite with
    | (.error e, t3) => (.error e, t3)
    | (.ok id, t3) =>
      match expect 41 t3.SkipWhite with
      | (.error e, t4) => (.error e, t4)
      | (.ok _, t4) => (.ok ("(*" ++ id ++ ")"), t4)

/-- Go `parseName`: dispatch on the peeked token; `(` starts a receiver, an
underscore or letter starts an identifier, anything else is a syntax error. -/
def parseName (t : Tokenizer) : Except PError String × Tokenizer :=
  match t.Peek with
  | (.error e, t1) => (.error e, t1)
  | (.ok tk, t1) =>
    if tk.Lexeme = 40 then parseReceiver t1
    else if tk.Lexeme = 95 ∨ isLetter tk.Lexeme then parseIdent t1
    else (.error (.unexpected tk), t1)

/-- The accumulation loop of Go `parseType`, on explicit fuel: consume runes
until a line feed, semicolon, or end of input, then return the accumulated
text trimmed of surrounding whitespace. -/
def parseTypeLoopFuel : Nat → String → Tokenizer → Except PError String × Tokenizer
  | 0, _, t => (.error .outOfFuel, t)
  | fuel + 1, typ, t =>
    match t.Peek with
    | (.error e, t1) =>
      if e = .ioEOF then (.ok (trimSpace typ), t1) else (.error e, t1)
    | (.ok tk, t1) =>
      if tk.Lexeme = 10 ∨ tk.Lexeme = 59 then (.ok (trimSpace typ), t1)
      else parseTypeLoopFuel fuel (typ ++ runeToStr tk.Lexeme) (t1.Next).2

/-- The accumulation loop of Go `parseType` run on its fuel bound. -/
def parseTypeLoop (typ : String) (t : Tokenizer) : Except PError String × Tokenizer :=
  parseTypeLoopFuel (t.fuelBound + 1) typ t

/-- Go `parseType`: the first token must not be `{`, a line feed, or a
semicolon; subsequent runes are consumed until a line feed, semicolon, or end
of input, and the text is returned trimmed. -/
def parseType (t : Tokenizer) : Except PError String × Tokenizer :=
  match t.Next with
  | (.error e, t1) => (.error e, t1)
  | (.ok tk, t1) =>
    if tk.Lexeme = 123 ∨ tk.Lexeme = 10 ∨ tk.Lexeme = 59 then
      (.error (.unexpected tk), t1)
    else parseTypeLoop (runeToStr tk.Lexeme) t1

mutual

/-- The loop of Go `parseList`, on explicit fuel, carrying the accumulated
map: skip whitespace; stop cleanly on end of input or a token that cannot
start a Name; otherwise parse an item, turn an `io.EOF` escaping from it into
the truncation error, and merge the bindings of the item into the accumulator. -/
def parseListAux : Nat → AnnMap → Tokenizer → Except PError AnnMap × Tokenizer
  | 0, _, t => (.error .outOfFuel, t)
  | fuel + 1, anns, t =>
    match t.SkipWhite.Peek with
    | (.error e, t1) =>
      if e = .ioEOF then (.ok anns, t1) else (.error e, t1)
    | (.ok tk, t1) =>
      if tk.Lexeme ≠ 40 ∧ tk.Lexeme ≠ 95 ∧ ¬ isLetter tk.Lexeme then (.ok anns, t1)
      else
        match parseItem fuel t1 with
        | (.error e, t2) =>
          if e = .ioEOF then (.error .truncated, t2) else (.error e, t2)
        | (.ok itemAnns, t2) => parseListAux fuel (mergeInto anns itemAnns) t2
termination_by structural fuel => fuel

/-- Go `parseItem`: a Name, same-line whitespace, a Def, same-line
whitespace, then end of input or a `;` or line-feed terminator; the result is
the map of the Def with keys prefixed by the name. -/
def parseItem : Nat → Tokenizer → Except PError AnnMap × Tokenizer
  | 0, t => (.error .outOfFuel, t)
  | fuel + 1, t =>
    match parseName t with
    | (.error e, t1) => (.error e, t1)
    | (.ok name, t1) =>
      match parseDef fuel t1.SkipWhiteUntilLine with
      | (.error e, t2) => (.error e, t2)
      | (.ok dm, t2) =>
        match t2.SkipWhiteUntilLine.Next with
        | (.error e, t3) =>
          if e = .ioEOF then (.ok (buildRet name dm), t3) else (.error e, t3)
        | (.ok tk, t3) =>
          if tk.Lexeme ≠ 59 ∧ tk.Lexeme ≠ 10 then (.error (.unexpected tk), t3)
          else (.ok (buildRet name dm), t3)
termination_by structural fuel => fuel

/-- Go `parseDef`: a `{` opens a nested List that must be closed by `}`,
whose map is returned unchanged; anything else is a TypeText, returned as the
single binding of the empty key. -/
def parseDef : Nat → Tokenizer → Except PError AnnMap × Tokenizer
  | 0, t => (.error .outOfFuel, t)
  | fuel + 1, t =>
    match t.Peek with
    | (.error e, t1) => (.error e, t1)
    | (.ok tk, t1) =>
      if tk.Lexeme = 123 then
        let t2 := (t1.Next).2
        match parseListAux fuel [] t2.SkipWhite with
        | (.error e, t3) => (.error e, t3)
        | (.ok anns, t3) =>
          match expect 125 t3.SkipWhite with
          | (.error e, t4) => (.error e, t4)
          | (.ok _, t4) => (.ok anns, t4)
      else
        match parseType t1 with
        | (.error e, t2) => (.error e, t2)
        | (.ok typ, t2) => (.ok [("", typ)], t2)
termination_by structural fuel => fuel

end

/-- Go `parseList`: the loop starting from an empty map. -/
def parseList (fuel : Nat) (t : Tokenizer) : Except PError AnnMap × Tokenizer :=
  parseListAux fuel [] t

/-- Go `Parse`: run `parseList` on a fresh tokenizer over the source bytes.
The fuel `4 * length + 16` exceeds the recursion depth reachable on any
input.  (Go additionally wraps the resulting map in `NewAnnotation`, a
constructor defined outside the parser source; no claim concerns the
wrapper, so the raw map and error are returned.) -/
def Parse (src : List Nat) : Except PError AnnMap × Tokenizer :=
  parseList (4 * src.length + 16) (NewTokenizer src)

/-- `Parse` applied to the UTF-8 bytes of a Lean string literal. -/
def ParseStr (s : String) : Except PError AnnMap × Tokenizer :=
  Parse (strBytes s)

attribute [simp] isSpace isLetter isDigit RuneError decodeRune utf8Encode strBytes
attribute [simp] runeToStr trimSpace Token.zero NewTokenizer Tokenizer.isEmpty
attribute [simp] Tokenizer.col Tokenizer.Peek Tokenizer.Next Tokenizer.consume
attribute [simp] Tokenizer.fuelBound skipWhiteFuel Tokenizer.SkipWhite
attribute [simp] skipWhiteUntilLineFuel Tokenizer.SkipWhiteUntilLine mapInsert
attribute [simp] mergeInto buildRet expect parseIdentLoopFuel parseIdentLoop
attribute [simp] parseIdent parseReceiver parseName parseTypeLoopFuel parseTypeLoop
attribute [simp] parseType parseListAux parseItem parseDef parseList Parse ParseStr

/-- Helper: decoding a nonempty byte list consumes at least one byte. -/
theorem decodeRune_cons_size_pos (b : Nat) (l : List Nat) : 0 < (decodeRune (b :: l)).2 := by
  simp only [decodeRune]
  repeat' split
  all_goals simp

/-- Helper: a cached lookahead token is returned by `Peek` without a state change. -/
theorem Peek_cached {t : Tokenizer} (h : 0 < t.lookahead.Size) :
    t.Peek = (.ok t.lookahead, t) := by
  simp only [Tokenizer.Peek, if_pos h]

/-- Helper: `Peek` at end of input fails with `io.EOF` without a state change. -/
theorem Peek_empty {t : Tokenizer} (hla : t.lookahead.Size = 0)
    (hb : t.src.length ≤ t.bytePos) : t.Peek = (.error .ioEOF, t) := by
  simp only [Tokenizer.Peek, hla, Tokenizer.isEmpty]
  simp [hb]

/-- Helper: fresh `Peek` at an ASCII byte produces the corresponding one-byte
token and caches it. -/
theorem Peek_fresh_ascii {t : Tokenizer} {b : Nat} {rest : List Nat}
    (hla : t.lookahead.Size = 0) (hd : t.src.drop t.bytePos = b :: rest) (hb : b < 128) :
    t.Peek = (.ok ⟨b, t.line, t.col, 1, t.bytePos, t.runePos⟩,
      { t with lookahead := ⟨b, t.line, t.col, 1, t.bytePos, t.runePos⟩ }) := by
  have hne : ¬ (t.src.length ≤ t.bytePos) := by
    intro hle
    rw [List.drop_eq_nil_iff.mpr hle] at hd
    exact List.noConfusion hd
  have hdec : decodeRune (t.src.drop t.bytePos) = (b, 1) := by
    rw [hd]
    simp only [decodeRune]
    rw [if_pos hb]
  simp only [Tokenizer.Peek, hla, Tokenizer.isEmpty, hdec]
  simp [hne, hb, RuneError]
  omega

/-- Helper: a successful `Peek` only fills the lookahead slot, the produced
token has positive byte size, and the peek either served the cache or decoded
fresh input. -/
theorem Peek_ok_state {t t1 : Tokenizer} {tk : Token} (h : t.Peek = (.ok tk, t1)) :
    t1 = { t with lookahead := tk } ∧ 0 < tk.Size ∧
      ((tk = t.lookahead ∧ 0 < t.lookahead.Size) ∨
        (t.lookahead.Size = 0 ∧ t.bytePos < t.src.length)) := by
  unfold Tokenizer.Peek at h
  split at h
  · rename_i hla
    obtain ⟨h1, h2⟩ := Prod.mk.injEq .. ▸ h
    obtain rfl := (Except.ok.injEq .. ▸ h1).symm
    refine ⟨?_, hla, Or.inl ⟨rfl, hla⟩⟩
    rw [← h2]
  · split at h
    · exact absurd h (by simp)
    · rename_i hla hne
      simp only [] at h
      split at h
      · exact absurd h (by simp)
      · rename_i hre
        obtain ⟨h1, h2⟩ := Prod.mk.injEq .. ▸ h
        obtain rfl := (Except.ok.injEq .. ▸ h1).symm
        have hsz : 0 < (decodeRune (t.src.drop t.bytePos)).2 := by
          have hbl : t.bytePos < t.src.length := by
            simp [Tokenizer.isEmpty] at hne
            exact hne
          obtain ⟨b, rest, hd⟩ : ∃ b rest, t.src.drop t.bytePos = b :: rest := by
            cases hdd : t.src.drop t.bytePos with
            | nil => exact absurd (List.drop_eq_nil_iff.mp hdd) (by omega)
            | cons b rest => exact ⟨b, rest, rfl⟩
          rw [hd]
          exact decodeRune_cons_size_pos b rest
        refine ⟨by rw [← h2], hsz, Or.inr ⟨by omega, ?_⟩⟩
        simp [Tokenizer.isEmpty] at hne
        exact hne

/-- Helper: a failing `Peek` leaves the state unchanged. -/
theorem Peek_error_state {t t1 : Tokenizer} {e : PError} (h : t.Peek = (.error e, t1)) :
    t1 = t := by
  unfold Tokenizer.Peek at h
  split at h
  · exact absurd h (by simp)
  · split at h
    · obtain ⟨h1, h2⟩ := Prod.mk.injEq .. ▸ h
      exact h2.symm
    · simp only [] at h
      split at h
      · obtain ⟨h1, h2⟩ := Prod.mk.injEq .. ▸ h
        exact h2.symm
      · exact absurd h (by simp)

/-- Helper: after a successful `Peek`, `Next` returns the same token and
advances the state by `consume`. -/
theorem Next_after_Peek {t t1 : Tokenizer} {tk : Token} (h : t.Peek = (.ok tk, t1)) :
    t1.Next = (.ok tk, t1.consume tk) := by
  obtain ⟨h1, hsz, _⟩ := Peek_ok_state h
  subst h1
  have hp : Tokenizer.Peek { t with lookahead := tk } =
      (.ok tk, { t with lookahead := tk }) := Peek_cached hsz
  unfold Tokenizer.Next
  rw [hp]
  simp only [hsz, if_pos, Tokenizer.consume]

/-- Helper: a successful `Next` factors as a successful `Peek` followed by
`consume`. -/
theorem Next_ok_shape {t t1 : Tokenizer} {tk : Token} (h : t.Next = (.ok tk, t1)) :
    t.Peek = (.ok tk, { t with lookahead := tk }) ∧
      t1 = Tokenizer.consume { t with lookahead := tk } tk := by
  unfold Tokenizer.Next at h
  cases hp : t.Peek with
  | mk r tp =>
    rw [hp] at h
    cases r with
    | error e => exact absurd h (by simp)
    | ok tk2 =>
      obtain ⟨h1, h2⟩ := Prod.mk.injEq .. ▸ h
      obtain rfl := (Except.ok.injEq .. ▸ h1).symm
      obtain ⟨hst, hsz, _⟩ := Peek_ok_state hp
      refine ⟨?_, ?_⟩
      · rw [hst]
      · rw [← h2, hst]
        simp only [hsz, if_pos, Tokenizer.consume]

/-- Helper: consuming the token returned by a successful `Peek` strictly
decreases the loop fuel bound. -/
theorem fuelBound_consume_lt {t t1 : Tokenizer} {tk : Token} (h : t.Peek = (.ok tk, t1)) :
    (t1.consume tk).fuelBound < t.fuelBound := by
  obtain ⟨hst, hsz, hcase⟩ := Peek_ok_state h
  subst hst
  have hz : Token.zero.Size = 0 := rfl
  simp only [Tokenizer.consume, Tokenizer.fuelBound, hz]
  split <;> simp only [hz] <;>
    rcases hcase with ⟨rfl, hla⟩ | ⟨hla, hlt⟩ <;> omega

/-- Helper: a successful `Peek` leaves a state whose own `Peek` returns the
same token and the same state. -/
theorem Peek_again {t t1 : Tokenizer} {tk : Token} (h : t.Peek = (.ok tk, t1)) :
    t1.Peek = (.ok tk, t1) := by
  obtain ⟨hst, hsz, _⟩ := Peek_ok_state h
  subst hst
  exact Peek_cached hsz

/-- Helper: `consume` always clears the lookahead slot. -/
theorem consume_lookahead (t : Tokenizer) (tk : Token) :
    (t.consume tk).lookahead = Token.zero := by
  simp only [Tokenizer.consume]
  split <;> rfl

/-- Helper: `consume` keeps the source and advances the byte position by the
size of the token. -/
theorem consume_src_bytePos (t : Tokenizer) (tk : Token) :
    (t.consume tk).src = t.src ∧ (t.consume tk).bytePos = t.bytePos + tk.Size := by
  simp only [Tokenizer.consume]
  split <;> exact ⟨rfl, rfl⟩

/-- Helper: on a remaining input consisting only of ASCII whitespace and
semicolons, the whitespace skipper halts at end of input or at a semicolon
token, which it leaves cached and unconsumed. -/
theorem skipWhiteFuel_ws :
    ∀ (fuel : Nat) (t : Tokenizer), t.fuelBound < fuel → t.lookahead.Size = 0 →
      (∀ b ∈ t.src.drop t.bytePos, b < 128 ∧ (isSpace b ∨ b = 59)) →
      (skipWhiteFuel fuel t).Peek = (.error .ioEOF, skipWhiteFuel fuel t) ∨
        ∃ tk, (skipWhiteFuel fuel t).Peek = (.ok tk, skipWhiteFuel fuel t) ∧
          tk.Lexeme = 59 := by
  intro fuel
  induction fuel with
  | zero => intro t hfb; omega
  | succ fuel ih =>
    intro t hfb hla hall
    by_cases hb : t.src.length ≤ t.bytePos
    · have hp := Peek_empty hla hb
      have hret : skipWhiteFuel (fuel + 1) t = t := by
        simp only [skipWhiteFuel, hp]
      rw [hret]
      exact Or.inl hp
    · push_neg at hb
      obtain ⟨b, rest, hd⟩ : ∃ b rest, t.src.drop t.bytePos = b :: rest := by
        cases hdd : t.src.drop t.bytePos with
        | nil => exact absurd (List.drop_eq_nil_iff.mp hdd) (by omega)
        | cons b rest => exact ⟨b, rest, rfl⟩
      obtain ⟨hb128, hbws⟩ := hall b (hd ▸ List.mem_cons_self b rest)
      have hp := Peek_fresh_ascii hla hd hb128
      by_cases hsp : isSpace b = true
      · have hstep : skipWhiteFuel (fuel + 1) t =
            skipWhiteFuel fuel
              (Tokenizer.consume { t with lookahead := ⟨b, t.line, t.col, 1, t.bytePos, t.runePos⟩ }
                ⟨b, t.line, t.col, 1, t.bytePos, t.runePos⟩) := by
          simp only [skipWhiteFuel, hp, hsp, Bool.not_true, Bool.false_eq_true, if_false,
            Next_after_Peek hp]
        rw [hstep]
        refine ih _ ?_ ?_ ?_
        · have := fuelBound_consume_lt hp
          omega
        · rw [consume_lookahead]
          rfl
        · intro x hx
          obtain ⟨hs, hbp⟩ := consume_src_bytePos
            { t with lookahead := ⟨b, t.line, t.col, 1, t.bytePos, t.runePos⟩ }
            ⟨b, t.line, t.col, 1, t.bytePos, t.runePos⟩
          rw [hs, hbp] at hx
          refine hall x ?_
          have htl : t.src.drop (t.bytePos + 1) = rest := by
            have := List.tail_drop t.src t.bytePos
            rw [hd] at this
            simpa using this.symm
          simp only [htl] at hx
          exact hd ▸ List.mem_cons_of_mem b hx
      · have hb59 : b = 59 := by
          rcases hbws with h | h
          · exact absurd h hsp
          · exact h
        have hsp2 : isSpace b = false := by
          revert hsp; cases isSpace b <;> simp
        have hret : skipWhiteFuel (fuel + 1) t =
            { t with lookahead := ⟨b, t.line, t.col, 1, t.bytePos, t.runePos⟩ } := by
          simp only [skipWhiteFuel, hp]
          split
          · rfl
          · rename_i hcond
            rw [hsp2] at hcond
            simp at hcond
        rw [hret]
        exact Or.inr ⟨⟨b, t.line, t.col, 1, t.bytePos, t.runePos⟩, Peek_again hp, hb59⟩

set_option maxRecDepth 4000

/-- C5: `parseList`, after skipping whitespace, stops cleanly (success, no
error, accumulated map returned) at end of input or at any token that is not
`(`, `_`, or a letter, leaving that token cached and unconsumed; in
particular a source of only ASCII whitespace and semicolon terminators
parses to the empty mapping with no error. -/
theorem C5_parseList_clean_stop :
    (∀ (fuel : Nat) (anns : AnnMap) (t t1 : Tokenizer),
        t.SkipWhite.Peek = (.error .ioEOF, t1) →
        parseListAux (fuel + 1) anns t = (.ok anns, t1)) ∧
    (∀ (fuel : Nat) (anns : AnnMap) (t t1 : Tokenizer) (tk : Token),
        t.SkipWhite.Peek = (.ok tk, t1) →
        tk.Lexeme ≠ 40 → tk.Lexeme ≠ 95 → ¬ isLetter tk.Lexeme →
        parseListAux (fuel + 1) anns t = (.ok anns, t1) ∧ t1.Peek = (.ok tk, t1)) ∧
    (∀ bs : List Nat, (∀ b ∈ bs, b < 128 ∧ (isSpace b ∨ b = 59)) →
        (Parse bs).1 = .ok []) := by
  refine ⟨?_, ?_, ?_⟩
  · intro fuel anns t t1 h
    simp only [parseListAux, h]
    simp
  · intro fuel anns t t1 tk h h40 h95 hlet
    refine ⟨?_, Peek_again h⟩
    simp only [parseListAux, h]
    rw [if_pos ⟨h40, h95, hlet⟩]
  · intro bs hall
    have hcase := skipWhiteFuel_ws ((NewTokenizer bs).fuelBound + 1) (NewTokenizer bs)
      (by omega) rfl (by simpa using hall)
    have hfuel : 4 * bs.length + 16 = (4 * bs.length + 15) + 1 := by omega
    simp only [Parse, parseList, hfuel]
    rcases hcase with heof | ⟨tk, hpk, h59⟩
    · simp only [parseListAux, Tokenizer.SkipWhite, heof]
      simp
    · have hguard : tk.Lexeme ≠ 40 ∧ tk.Lexeme ≠ 95 ∧ ¬ isLetter tk.Lexeme := by
        rw [h59]
        decide
      simp only [parseListAux, Tokenizer.SkipWhite, hpk]
      rw [if_pos hguard]


/-- Helper: looking up a key absent from `m` in `m ++ [(k, v)]` finds `v`. -/
theorem lookup_append_single {k v : String} :
    ∀ m : AnnMap, (∀ p ∈ m, p.1 ≠ k) → (m ++ [(k, v)]).lookup k = some v := by
  intro m
  induction m with
  | nil => simp [List.lookup]
  | cons p rest ih =>
    intro hne
    obtain ⟨a, b⟩ := p
    have h1 : a ≠ k := hne (a, b) (List.mem_cons_self (a, b) rest)
    have hc : (k == a) = false := by simp [Ne.symm h1]
    simp only [List.cons_append, List.lookup, hc]
    exact ih fun q hq => hne q (List.mem_cons_of_mem (a, b) hq)

/-- Helper: inserting a binding for `k` makes lookup of `k` return it. -/
theorem lookup_mapInsert_self (m : AnnMap) (k v : String) :
    (mapInsert m k v).lookup k = some v := by
  simp only [mapInsert]
  split
  · rename_i hany
    induction m with
    | nil => simp at hany
    | cons p rest ih =>
      obtain ⟨a, b⟩ := p
      by_cases hak : a = k
      · subst hak
        have hc : (a == a) = true := by simp
        simp only [List.map_cons]
        rw [if_pos hc]
        simp [List.lookup, hc]
      · have hc : ¬ ((a == k) = true) := by simp [hak]
        have hc2 : (k == a) = false := by simp [Ne.symm hak]
        simp only [List.any_cons] at hany
        rcases Bool.or_eq_true_iff.mp hany with h | h
        · exact absurd h hc
        · simp only [List.map_cons]
          rw [if_neg hc]
          simp only [List.lookup, hc2]
          exact ih h
  · rename_i hany
    refine lookup_append_single m fun p hp => ?_
    intro hpk
    exact hany (List.any_eq_true.mpr ⟨p, hp, by simp [hpk]⟩)


/-- Helper: unfolding of `List.lookup` on a cons cell. -/
theorem lookup_cons_unfold (k a b : String) (rest : AnnMap) :
    ((a, b) :: rest).lookup k = if (k == a) = true then some b else rest.lookup k := by
  cases h : (k == a) with
  | true => simp [List.lookup, h]
  | false => simp [List.lookup, h]

/-- Helper: inserting a binding for another key does not change lookup. -/
theorem lookup_mapInsert_ne (m : AnnMap) (k k2 v : String) (h : k2 ≠ k) :
    (mapInsert m k v).lookup k2 = m.lookup k2 := by
  simp only [mapInsert]
  split
  · clear * - h
    induction m with
    | nil => rfl
    | cons p rest ih =>
      obtain ⟨a, b⟩ := p
      by_cases hak : a = k
      · subst hak
        have hc : (a == a) = true := by simp
        have hc2 : (k2 == a) = false := by simp [h]
        simp only [List.map_cons]
        rw [if_pos hc]
        rw [lookup_cons_unfold, lookup_cons_unfold, hc2]
        simp only [Bool.false_eq_true, if_false]
        exact ih
      · have hc : ¬ ((a == k) = true) := by simp [hak]
        simp only [List.map_cons]
        rw [if_neg hc]
        rw [lookup_cons_unfold, lookup_cons_unfold]
        cases hc3 : (k2 == a) with
        | false =>
          simp only [Bool.false_eq_true, if_false]
          exact ih
        | true => rw [if_pos rfl, if_pos rfl]
  · clear * - h
    induction m with
    | nil =>
      have hc : (k2 == k) = false := by simp [h]
      simp [lookup_cons_unfold, hc, List.lookup]
    | cons p rest ih =>
      obtain ⟨a, b⟩ := p
      simp only [List.cons_append]
      rw [lookup_cons_unfold, lookup_cons_unfold]
      cases hc3 : (k2 == a) with
      | false =>
        simp only [Bool.false_eq_true, if_false]
        exact ih
      | true => rw [if_pos rfl, if_pos rfl]

/-- Helper: merging bindings whose keys avoid `k` does not change lookup of
`k`. -/
theorem lookup_mergeInto_not_mem {k : String} :
    ∀ (m anns : AnnMap), (∀ p ∈ m, p.1 ≠ k) → (mergeInto anns m).lookup k = anns.lookup k := by
  intro m
  induction m with
  | nil => intro anns _; rfl
  | cons p rest ih =>
    intro anns hne
    obtain ⟨a, b⟩ := p
    simp only [mergeInto, List.foldl_cons]
    have h1 : a ≠ k := hne (a, b) (List.mem_cons_self (a, b) rest)
    have hrec := ih (mapInsert anns a b) fun q hq => hne q (List.mem_cons_of_mem (a, b) hq)
    simp only [mergeInto] at hrec
    rw [hrec]
    exact lookup_mapInsert_ne anns a k b (Ne.symm h1)

/-- Helper: if `m` has unique keys, a binding of `m` wins in `mergeInto`. -/
theorem lookup_mergeInto_mem :
    ∀ (m anns : AnnMap) (k v : String), (m.map Prod.fst).Nodup → (k, v) ∈ m →
      (mergeInto anns m).lookup k = some v := by
  intro m
  induction m with
  | nil => intro anns k v _ hmem; simp at hmem
  | cons p rest ih =>
    intro anns k v hnd hmem
    obtain ⟨a, b⟩ := p
    simp only [List.map_cons, List.nodup_cons] at hnd
    rcases List.mem_cons.mp hmem with heq | hmem2
    · obtain ⟨rfl, rfl⟩ := Prod.mk.injEq .. ▸ heq
      simp only [mergeInto, List.foldl_cons]
      have hnot : ∀ q ∈ rest, q.1 ≠ k := by
        intro q hq hqk
        exact hnd.1 (hqk ▸ List.mem_map_of_mem Prod.fst hq)
      have hrec := lookup_mergeInto_not_mem rest (mapInsert anns k v) hnot
      simp only [mergeInto] at hrec
      rw [hrec]
      exact lookup_mapInsert_self anns k v
    · simp only [mergeInto, List.foldl_cons]
      have hrec := ih (mapInsert anns a b) k v hnd.2 hmem2
      simp only [mergeInto] at hrec
      exact hrec

/-- C6: when parsing a list, the bindings of an item are folded into the
accumulated map with the incoming binding replacing any earlier binding for
the same key, so of two Items producing the same key the later one wins, and
the parse succeeds; demonstrated concretely on two items named `Foo`. -/
theorem C6_last_write_wins :
    (∀ (fuel : Nat) (anns itemAnns : AnnMap) (t t1 t2 : Tokenizer) (tk : Token),
        t.SkipWhite.Peek = (.ok tk, t1) →
        (tk.Lexeme = 40 ∨ tk.Lexeme = 95 ∨ isLetter tk.Lexeme) →
        parseItem fuel t1 = (.ok itemAnns, t2) →
        parseListAux (fuel + 1) anns t = parseListAux fuel (mergeInto anns itemAnns) t2) ∧
    (∀ (anns m : AnnMap) (k v : String),
        (m.map Prod.fst).Nodup → (k, v) ∈ m →
        (mergeInto anns m).lookup k = some v) ∧
    ((ParseStr "Foo int;Foo bool").1 = .ok [("Foo", "bool")]) := by
  refine ⟨?_, ?_, ?_⟩
  · intro fuel anns itemAnns t t1 t2 tk hpk hname hitem
    have hguard : ¬ (tk.Lexeme ≠ 40 ∧ tk.Lexeme ≠ 95 ∧ ¬ isLetter tk.Lexeme) := by
      rintro ⟨h40, h95, hl⟩
      rcases hname with h | h | h
      · exact h40 h
      · exact h95 h
      · exact hl h
    simp only [parseListAux, hpk, hitem]
    rw [if_neg hguard]
  · exact fun anns m => lookup_mergeInto_mem m anns
  · simp
    decide

/-- C9: `parseName` sends a leading underscore or letter to `parseIdent`,
which consumes its first token unconditionally and then consumes further
tokens exactly while they are letters or digits; an underscore is neither, so
an underscore after the first rune stops the identifier (shown concretely:
`a_b c` parses the identifier `a` and `_b c` becomes the type text). -/
theorem C9_identifier_acceptance :
    (∀ (t t1 : Tokenizer) (tk : Token),
        t.Peek = (.ok tk, t1) → (tk.Lexeme = 95 ∨ isLetter tk.Lexeme) →
        parseName t = parseIdent t1) ∧
    (∀ (t t1 : Tokenizer) (tk : Token),
        t.Next = (.ok tk, t1) → parseIdent t = parseIdentLoop (runeToStr tk.Lexeme) t1) ∧
    (∀ (fuel : Nat) (id : String) (t t1 : Tokenizer) (tk : Token),
        t.Peek = (.ok tk, t1) → (isLetter tk.Lexeme ∨ isDigit tk.Lexeme) →
        parseIdentLoopFuel (fuel + 1) id t =
          parseIdentLoopFuel fuel (id ++ runeToStr tk.Lexeme) (t1.Next).2) ∧
    (∀ (fuel : Nat) (id : String) (t t1 : Tokenizer) (tk : Token),
        t.Peek = (.ok tk, t1) → ¬ isLetter tk.Lexeme → ¬ isDigit tk.Lexeme →
        parseIdentLoopFuel (fuel + 1) id t = (.ok id, t1)) ∧
    (isLetter 95 = false ∧ isDigit 95 = false) ∧
    ((ParseStr "a_b c").1 = .ok [("a", "_b c")]) := by
  refine ⟨?_, ?_, ?_, ?_, by decide, ?_⟩
  · intro t t1 tk hpk hstart
    have h40 : ¬ (tk.Lexeme = 40) := by
      rcases hstart with h | h
      · omega
      · simp only [isLetter, decide_eq_true_eq] at h
        omega
    simp only [parseName, hpk]
    rw [if_neg h40, if_pos hstart]
  · intro t t1 tk hnx
    simp only [parseIdent, hnx]
  · intro fuel id t t1 tk hpk hacc
    have hguard : ¬ (¬ isLetter tk.Lexeme ∧ ¬ isDigit tk.Lexeme) := by
      rintro ⟨hl, hd⟩
      rcases hacc with h | h
      · exact hl h
      · exact hd h
    simp only [parseIdentLoopFuel, hpk]
    rw [if_neg hguard]
  · intro fuel id t t1 tk hpk hl hd
    simp only [parseIdentLoopFuel, hpk]
    rw [if_pos ⟨hl, hd⟩]
  · simp
    decide

/-- C7: a freshly produced token carries column `runePos - lastLinePos + 1`
(1-based, counted in runes); consuming any token advances the rune offset by
exactly one regardless of its byte size; consuming a line feed increments the
line counter and resets the column origin so the next column is 1; and after
the two-byte character in `á x` the token `x` has column 3 (its byte offset
is 3, so a byte-based column would be 4). -/
theorem C7_columns_in_runes :
    (∀ (t t1 : Tokenizer) (tk : Token), t.lookahead.Size = 0 →
        t.Peek = (.ok tk, t1) →
        tk.Col = t.runePos - t.lastLinePos + 1 ∧ tk.Line = t.line ∧
          tk.RunePos = t.runePos ∧ tk.BytePos = t.bytePos) ∧
    (∀ (t t1 : Tokenizer) (tk : Token), t.Next = (.ok tk, t1) →
        t1.runePos = t.runePos + 1 ∧
        (tk.Lexeme = 10 → t1.line = t.line + 1 ∧ t1.lastLinePos = t1.runePos ∧ t1.col = 1) ∧
        (tk.Lexeme ≠ 10 → t1.line = t.line ∧ t1.lastLinePos = t.lastLinePos)) ∧
    ((((NewTokenizer (strBytes "á x")).Next).2.Next).2.Peek.1 =
        .ok ⟨120, 1, 3, 1, 3, 2⟩) := by
  refine ⟨?_, ?_, by decide⟩
  · intro t t1 tk hla hpk
    unfold Tokenizer.Peek at hpk
    rw [if_neg (by omega)] at hpk
    split at hpk
    · exact absurd hpk (by simp)
    · simp only [] at hpk
      split at hpk
      · exact absurd hpk (by simp)
      · obtain ⟨h1, h2⟩ := Prod.mk.injEq .. ▸ hpk
        obtain rfl := (Except.ok.injEq .. ▸ h1).symm
        exact ⟨rfl, rfl, rfl, rfl⟩
  · intro t t1 tk hnx
    obtain ⟨hpk, ht1⟩ := Next_ok_shape hnx
    subst ht1
    simp only [Tokenizer.consume]
    refine ⟨?_, ?_, ?_⟩
    · split <;> rfl
    · intro h10
      rw [if_pos h10]
      refine ⟨rfl, rfl, ?_⟩
      simp [Tokenizer.col]
    · intro h10
      rw [if_neg h10]
      exact ⟨rfl, rfl⟩

/-- C8: `Peek` is idempotent and non-consuming: a second `Peek` returns the
same token and the same state, `Peek` changes none of the position counters
(line, column, byte offset, rune offset), and a `Next` immediately after a
successful `Peek` returns exactly the peeked token. -/
theorem C8_peek_idempotent_nonconsuming (t : Tokenizer) :
    ((t.Peek).2).Peek = t.Peek ∧
    (t.Peek).2.src = t.src ∧ (t.Peek).2.bytePos = t.bytePos ∧
    (t.Peek).2.runePos = t.runePos ∧ (t.Peek).2.line = t.line ∧
    (t.Peek).2.lastLinePos = t.lastLinePos ∧ (t.Peek).2.col = t.col ∧
    (∀ tk, (t.Peek).1 = .ok tk → ((t.Peek).2.Next).1 = .ok tk) := by
  rcases hp : t.Peek with ⟨r, t1⟩
  cases r with
  | error e =>
    obtain rfl := Peek_error_state hp
    exact ⟨hp, rfl, rfl, rfl, rfl, rfl, rfl, fun tk htk => absurd htk (by simp)⟩
  | ok tk =>
    obtain ⟨ht1, hsz, _⟩ := Peek_ok_state hp
    subst ht1
    refine ⟨Peek_again hp, rfl, rfl, rfl, rfl, rfl, rfl, ?_⟩
    intro tk2 htk2
    obtain rfl : tk = tk2 := by simpa using htk2
    rw [Next_after_Peek hp]

/-- C10: at a position holding the well-formed three-byte UTF-8 encoding
`EF BF BD` of U+FFFD, `decodeRune` returns the value `utf8.RuneError` with
size 3 (a successful three-byte decode), yet `Peek` compares only the rune
value against `utf8.RuneError` and therefore reports a UTF-8 encoding error
at the current position, leaving the state unchanged. -/
theorem C10_replacement_char_false_error :
    ∀ (t : Tokenizer) (rest : List Nat), t.lookahead.Size = 0 →
      t.src.drop t.bytePos = 0xEF :: 0xBF :: 0xBD :: rest →
      t.Peek = (.error (.utf8 t.line t.col), t) ∧
      decodeRune (0xEF :: 0xBF :: 0xBD :: rest) = (RuneError, 3) := by
  intro t rest hla hd
  have hdec : decodeRune (0xEF :: 0xBF :: 0xBD :: rest) = (RuneError, 3) := by
    simp only [decodeRune, RuneError]
    norm_num
  refine ⟨?_, hdec⟩
  have hne : ¬ (t.src.length ≤ t.bytePos) := by
    intro hle
    rw [List.drop_eq_nil_iff.mpr hle] at hd
    exact List.noConfusion hd
  unfold Tokenizer.Peek
  rw [if_neg (by omega)]
  rw [if_neg (by simp [Tokenizer.isEmpty, hne])]
  simp only [hd, hdec, if_true]

/-- C1 counterexample: parsing the receiver example from the spec does not yield the
claimed one-entry mapping (it does not succeed at all). -/
theorem C1_counterexample :
    (ParseStr "(*File) \x7b Read func(b []byte) (n int, err error) \x7d").1 ≠
      Except.ok [("(*File).Read", "func(b []byte) (n int, err error)")] := by
  simp

/-- C1 amended: the type text after `Read` runs to end of input, swallowing
the closing brace, so the parse fails with the truncation error; with a line
feed terminating the type text before the closing brace, the parse succeeds
and yields exactly the claimed one-entry mapping. -/
theorem C1_amended_truncation :
    (ParseStr "(*File) \x7b Read func(b []byte) (n int, err error) \x7d").1 =
      Except.error PError.truncated ∧
    (ParseStr "(*File) \x7b Read func(b []byte) (n int, err error)\n\x7d").1 =
      Except.ok [("(*File).Read", "func(b []byte) (n int, err error)")] := by
  constructor
  · simp
  · simp
    try decide

/-- C2 counterexample: parsing the nesting example from the spec does not yield the
claimed one-entry mapping (it does not succeed at all). -/
theorem C2_counterexample :
    (ParseStr "pkg \x7b Type \x7b Method sig \x7d \x7d").1 ≠
      Except.ok [("pkg.Type.Method", "sig")] := by
  simp

/-- C2 amended: the type text after `Method` runs to end of input, swallowing
both closing braces, so the parse fails with the truncation error; with line
feeds terminating the type text and the inner item, the parse succeeds and
yields exactly the dotted key built from the enclosing names. -/
theorem C2_amended_truncation :
    (ParseStr "pkg \x7b Type \x7b Method sig \x7d \x7d").1 =
      Except.error PError.truncated ∧
    (ParseStr "pkg \x7b Type \x7b Method sig\n\x7d\n\x7d").1 =
      Except.ok [("pkg.Type.Method", "sig")] := by
  constructor
  · simp
  · simp
    try decide

/-- C3 counterexample: parsing `123abc int` does not fail; it returns the
empty mapping with no error. -/
theorem C3_counterexample : (ParseStr "123abc int").1 = Except.ok [] := by
  decide

/-- C3 amended: a leading digit is not a valid Name start, so `parseList`
stops cleanly before it: the parse succeeds with an empty mapping and no
error, and the digit token (line 1, column 1) is left cached and unconsumed
with the byte position still at 0. -/
theorem C3_amended_clean_stop :
    ParseStr "123abc int" =
      (Except.ok [], { src := strBytes "123abc int", bytePos := 0, runePos := 0,
                       lastLinePos := 0, line := 1, lookahead := ⟨49, 1, 1, 1, 0, 0⟩ }) := by
  decide

/-- C4: an opening brace with no matching closing brace, reaching end of
input, fails with the truncation error (not a syntax or encoding error). -/
theorem C4_unclosed_brace_truncation :
    (ParseStr "Foo \x7b").1 = Except.error PError.truncated := by
  decide

/-- Witness for C5 on a concrete whitespace-and-terminator source. -/
theorem C5_witness : (Parse (strBytes " ;\n ; ")).1 = .ok [] :=
  C5_parseList_clean_stop.2.2 (strBytes " ;\n ; ") (by decide)

/-- Witness for C6 on a concrete duplicate key. -/
theorem C6_witness : (mergeInto [("k", "old")] [("k", "new")]).lookup "k" = some "new" :=
  C6_last_write_wins.2.1 [("k", "old")] [("k", "new")] "k" "new" (by simp) (by simp)

/-- Witness for C7: consuming the line feed of a concrete source resets the
column to 1. -/
theorem C7_witness : (((NewTokenizer (strBytes "\nx")).Next).2).col = 1 :=
  ((C7_columns_in_runes.2.1 (NewTokenizer (strBytes "\nx"))
    ((NewTokenizer (strBytes "\nx")).Next).2 ⟨10, 1, 1, 1, 0, 0⟩ (by decide)).2.1 rfl).2.2

/-- Witness for C8: `Next` right after a successful `Peek` returns the peeked
token, on a concrete source. -/
theorem C8_witness :
    (((NewTokenizer (strBytes "x")).Peek).2.Next).1 = .ok ⟨120, 1, 1, 1, 0, 0⟩ :=
  (C8_peek_idempotent_nonconsuming (NewTokenizer (strBytes "x"))).2.2.2.2.2.2.2
    ⟨120, 1, 1, 1, 0, 0⟩ (by decide)

/-- Witness for C9: the identifier loop stops at an underscore, on a concrete
source. -/
theorem C9_witness :
    parseIdentLoopFuel 1 "x" (NewTokenizer (strBytes "_y")) =
      (.ok "x", { src := strBytes "_y", bytePos := 0, runePos := 0, lastLinePos := 0,
                  line := 1, lookahead := ⟨95, 1, 1, 1, 0, 0⟩ }) :=
  C9_identifier_acceptance.2.2.2.1 0 "x" (NewTokenizer (strBytes "_y"))
    { src := strBytes "_y", bytePos := 0, runePos := 0, lastLinePos := 0,
      line := 1, lookahead := ⟨95, 1, 1, 1, 0, 0⟩ }
    ⟨95, 1, 1, 1, 0, 0⟩ (by decide) (by decide) (by decide)

/-- Witness for C10 on the concrete three-byte source `EF BF BD`. -/
theorem C10_witness :
    (NewTokenizer [0xEF, 0xBF, 0xBD]).Peek =
      (.error (.utf8 1 1), NewTokenizer [0xEF, 0xBF, 0xBD]) ∧
    decodeRune [0xEF, 0xBF, 0xBD] = (RuneError, 3) :=
  C10_replacement_char_false_error (NewTokenizer [0xEF, 0xBF, 0xBD]) [] rfl rfl
